import Mathlib

/-
  Verification of the connection registry and message fan-out engine of a
  collaborative document editor backend.

  The model below is a shallow embedding of the Go package socket:
  the Client and Message structs, the WebSocketManager registry, the
  Run arbiter loop, BroadcastToAllClients, HandleUserData,
  HandleDeleteUser, the inbound pump forwarding of HandleClientRead,
  and the identity helpers GetRandomName and GetRandomColor.

  Concurrency is sequentialized: the arbiter loop processes one request
  at a time, and the asynchronous HandleDeleteUser goroutine is folded
  into the Unregister case that spawns it.  Channels with buffer 256 are
  modelled as bounded FIFO lists; a select-with-default send succeeds
  exactly when the buffer is below capacity, and a plain channel send is
  an append (it can only block, never fail).  json.Marshal is modelled
  as a function Message to Option Bytes so that its error branches in
  the source remain visible; the concrete instance jsonMarshal never
  fails, matching json.Marshal on these value shapes.
-/

/-- Serialized wire bytes (Go byte slices) modelled as strings. -/
abbrev Bytes := String

/-- The Data field of a message: map from named sub-objects to
string-keyed string attribute maps, in insertion order. -/
abbrev DataMap := List (String × List (String × String))

/-- Go struct Message with fields Type and Data. -/
structure Message where
  type : String
  data : DataMap
deriving DecidableEq

/-- Go struct Client: stable ID, identity Data, and the bounded Send
queue (capacity 256 in the source) with a closed flag recording that
close was called on the channel. -/
structure Session where
  id : String
  data : DataMap
  queue : List Bytes
  cap : Nat
  closed : Bool
deriving DecidableEq

/-- Appending one serialized envelope to the outbound queue of a session. -/
def enqueue (s : Session) (b : Bytes) : Session :=
  { s with queue := s.queue ++ [b] }

/-- The ids of the sessions of a registry, in registry order. -/
def ids (l : List Session) : List String :=
  l.map (fun s => s.id)

/-- JSON encoding of a string value. -/
def encodeStr (s : String) : String := "\"" ++ s ++ "\""

/-- JSON encoding of one attribute map. -/
def encodeAttrs (a : List (String × String)) : String :=
  "\x7b" ++ String.intercalate ","
    (a.map (fun p => encodeStr p.1 ++ ":" ++ encodeStr p.2)) ++ "\x7d"

/-- JSON encoding of a Data field. -/
def encodeData (d : DataMap) : String :=
  "\x7b" ++ String.intercalate ","
    (d.map (fun p => encodeStr p.1 ++ ":" ++ encodeAttrs p.2)) ++ "\x7d"

/-- The JSON text json.Marshal produces for a Message value. -/
def enc (m : Message) : Bytes :=
  "\x7b\"type\":" ++ encodeStr m.type ++ ",\"data\":" ++ encodeData m.data ++ "\x7d"

/-- json.Marshal on a Message: on these value shapes (string type and
string maps) the Go encoder always succeeds. -/
def jsonMarshal (m : Message) : Option Bytes := some (enc m)

/-- The user-removed presence message HandleDeleteUser builds from the
Data of the removed client. -/
def userRemovedMsg (c : Session) : Message :=
  { type := "user-removed", data := c.data }

/-- The user-data presence message HandleUserData sends to the new
client about itself. -/
def userDataMsg (c : Session) : Message :=
  { type := "user-data", data := c.data }

/-- A user-added presence message carrying a given identity Data. -/
def userAddedMsg (d : DataMap) : Message :=
  { type := "user-added", data := d }

/-- BroadcastToAllClients: iterate the registry; a recipient whose
queue has room receives the message, a recipient whose queue is full is
evicted on the spot: its queue is closed and it is deleted from the
registry.  Returns the surviving registry (messages delivered) and the
evicted sessions (closed, nothing delivered).  No presence message is
constructed on this path. -/
def BroadcastToAllClients : List Session → Bytes → List Session × List Session
  | [], _ => ([], [])
  | c :: rest, m =>
    let r := BroadcastToAllClients rest m
    if c.queue.length < c.cap then (enqueue c m :: r.1, r.2)
    else (r.1, { c with closed := true } :: r.2)

/-- A plain (blocking) channel send of one message to the session of a
given id: the message is appended to that queue. -/
def sendBlocking (clients : List Session) (i : String) (b : Bytes) : List Session :=
  clients.map (fun s => if s.id == i then enqueue s b else s)

/-- The Register case of Run: map insertion keyed by the session. -/
def registerStep (clients : List Session) (c : Session) : List Session :=
  if clients.any (fun s => s.id == c.id) then clients else clients ++ [c]

/-- HandleDeleteUser: build the user-removed message for the removed
client; a marshalling error drops the single message and returns,
otherwise the message goes to the broadcast channel and is fanned out.
Returns (surviving registry, evicted sessions, constructed messages). -/
def HandleDeleteUser (marshal : Message → Option Bytes)
    (clients : List Session) (c : Session) :
    List Session × List Session × List Message :=
  match marshal (userRemovedMsg c) with
  | none => (clients, [], [userRemovedMsg c])
  | some b =>
    let r := BroadcastToAllClients clients b
    (r.1, r.2, [userRemovedMsg c])

/-- The Unregister case of Run: if the session is a current member it is
deleted from the registry, its queue is closed, and HandleDeleteUser is
spawned over the remaining members; otherwise nothing happens.
Returns (surviving registry, removed sessions, constructed messages). -/
def unregisterStep (marshal : Message → Option Bytes)
    (clients : List Session) (c : Session) :
    List Session × List Session × List Message :=
  match clients.find? (fun s => s.id == c.id) with
  | none => (clients, [], [])
  | some s =>
    let rest := clients.filter (fun t => !(t.id == c.id))
    let r := HandleDeleteUser marshal rest c
    (r.1, { s with closed := true } :: r.2.1, r.2.2)

/-- The body of the loop of step 2 of HandleUserData: for one existing
client, skip it when it is the new client itself, otherwise marshal its
user-added message; on error drop that one message and continue, else
send it to the new client.  The accumulator carries the registry and
the constructed messages. -/
def existingUserStep (marshal : Message → Option Bytes) (cid : String)
    (acc : List Session × List Message) (p : Session) :
    List Session × List Message :=
  if p.id == cid then acc
  else
    match marshal (userAddedMsg p.data) with
    | none => (acc.1, acc.2 ++ [userAddedMsg p.data])
    | some pb => (sendBlocking acc.1 cid pb, acc.2 ++ [userAddedMsg p.data])

/-- HandleUserData: the admission sequence of a freshly registered
client.  Step 1 sends the user-data message to the client itself (a
marshalling error here returns, abandoning the rest).  Step 2 walks the
registry and sends one user-added message per existing client to the
new client.  Step 3 broadcasts one user-added announcement about the
new client to the whole registry (a marshalling error drops it).
Returns (surviving registry, evicted sessions, constructed messages). -/
def HandleUserData (marshal : Message → Option Bytes)
    (clients : List Session) (c : Session) :
    List Session × List Session × List Message :=
  match marshal (userDataMsg c) with
  | none => (clients, [], [userDataMsg c])
  | some b1 =>
    let cs1 := sendBlocking clients c.id b1
    let st2 := cs1.foldl (existingUserStep marshal c.id) (cs1, [])
    match marshal (userAddedMsg c.data) with
    | none => (st2.1, [], userDataMsg c :: st2.2 ++ [userAddedMsg c.data])
    | some b3 =>
      let r := BroadcastToAllClients st2.1 b3
      (r.1, r.2, userDataMsg c :: st2.2 ++ [userAddedMsg c.data])

/-- One successful read iteration of HandleClientRead: the raw frame is
forwarded unmodified to the broadcast channel and fanned out. -/
def HandleClientReadStep (clients : List Session) (raw : Bytes) :
    List Session × List Session :=
  BroadcastToAllClients clients raw

/-- The three request kinds the Run arbiter loop selects over. -/
inductive Event
  | register (c : Session)
  | unregister (c : Session)
  | broadcast (m : Bytes)
deriving DecidableEq

/-- One iteration of the Run loop, registry only. -/
def applyEvent (clients : List Session) : Event → List Session
  | Event.register c => registerStep clients c
  | Event.unregister c => (unregisterStep jsonMarshal clients c).1
  | Event.broadcast m => (BroadcastToAllClients clients m).1

/-- The Run loop over a finite request sequence. -/
def runEvents (clients : List Session) (evts : List Event) : List Session :=
  evts.foldl applyEvent clients

/-- The Run loop instrumented with the ids of the successfully
unregistered sessions: an unregister counts exactly when its session is
a member at the time it is processed. -/
def runCount : List Session → List Event → List Session × List String
  | cl, [] => (cl, [])
  | cl, Event.register c :: rest => runCount (registerStep cl c) rest
  | cl, Event.unregister c :: rest =>
    let success := cl.any (fun s => s.id == c.id)
    let r := runCount (unregisterStep jsonMarshal cl c).1 rest
    (r.1, if success then c.id :: r.2 else r.2)
  | cl, Event.broadcast m :: rest => runCount (BroadcastToAllClients cl m).1 rest

/-- The ids of the sessions named by register events, in order. -/
def regIds (evts : List Event) : List String :=
  evts.filterMap (fun e =>
    match e with
    | Event.register c => some c.id
    | _ => none)

/-- Every unregister event names a session registered earlier in the
sequence (the temporal hypothesis of the size claim). -/
def unregPrecededB : List Event → List String → Bool
  | [], _ => true
  | Event.register c :: rest, seen => unregPrecededB rest (c.id :: seen)
  | Event.unregister c :: rest, seen => seen.contains c.id && unregPrecededB rest seen
  | Event.broadcast _ :: rest, seen => unregPrecededB rest seen

/-- The fixed name pool of utils.go. -/
def randomNames : List String := ["🦊 Fox", "🐼 Panda", "🐧 Penguin", "🦁 Lion", "🐸 Frog"]

/-- GetRandomName with the draw of rand.Intn on the pool size made an
explicit argument: the Go function reads the process-global PRNG and
takes no argument at all; in particular it is not a function of the
request. -/
def GetRandomName (draw : Nat) : String := randomNames.getD draw ""

/-- GetRandomColor with the draw of rand.Intn 360 made explicit: an
hsl color of random hue and fixed saturation and lightness. -/
def GetRandomColor (hue : Nat) : String :=
  "hsl(" ++ toString hue ++ ", 70%, 60%)"

/-- The identity Data built by HandleWebSocketConnections at admission:
the remote address as userId plus the two random identity draws. -/
def admissionData (remoteAddr : String) (nameDraw hueDraw : Nat) : DataMap :=
  [("userData", [("userId", remoteAddr), ("userName", GetRandomName nameDraw),
                 ("userColor", GetRandomColor hueDraw)])]

/-- The Client value HandleWebSocketConnections builds: id from the
remote address, admission identity Data, empty queue of capacity 256. -/
def newClient (remoteAddr : String) (nameDraw hueDraw : Nat) : Session :=
  { id := remoteAddr, data := admissionData remoteAddr nameDraw hueDraw,
    queue := [], cap := 256, closed := false }

/-- A marshaller failing exactly on user-data messages, exercising the
error return of step 1 of HandleUserData. -/
def marshalNoUserData (m : Message) : Option Bytes :=
  if m.type == "user-data" then none else jsonMarshal m

/-- Three concrete admitted sessions for concrete scenarios. -/
def sessA : Session := newClient "203.0.113.1:7001" 0 10

def sessB : Session := newClient "203.0.113.2:7002" 1 200

def sessC : Session := newClient "203.0.113.3:7003" 2 300

/-- A session whose outbound queue is at capacity. -/
def sessFull : Session :=
  { id := "203.0.113.9:7009", data := admissionData "203.0.113.9:7009" 3 40,
    queue := ["old1", "old2"], cap := 2, closed := false }

/-- The serialized content envelope session B sends in the three-client
scenario: full markup, cursor position and sender identity, already
serialized by the browser before it reaches the inbound pump. -/
def contentRaw : Bytes :=
  "\x7b\"type\":\"content\",\"data\":\x7b\"content\":\"<p>hi</p>\",\"position\":\x7b\"x\":10,\"y\":20\x7d,\"userData\":\x7b\"userId\":\"203.0.113.2:7002\"\x7d\x7d\x7d"

/-- A register, unregister, register sequence on a single session. -/
def evts6 : List Event :=
  [Event.register sessA, Event.unregister sessA, Event.register sessA]

/-- A marshaller failing exactly on the user-added message about the
identity of session A, exercising the continue branch of step 2 of
HandleUserData. -/
def marshalDropA (m : Message) : Option Bytes :=
  if m == userAddedMsg sessA.data then none else jsonMarshal m

/-- A marshaller failing exactly on user-removed messages, exercising
the error return of HandleDeleteUser. -/
def marshalNoRemoved (m : Message) : Option Bytes :=
  if m.type == "user-removed" then none else jsonMarshal m

/-
  Helper lemmas.
-/

/-- A broadcast over a registry in which every queue has room delivers
the message to every queue and evicts nobody. -/
theorem broadcast_ok (l : List Session) (m : Bytes)
    (h : ∀ s ∈ l, s.queue.length < s.cap) :
    BroadcastToAllClients l m = (l.map (fun s => enqueue s m), []) := by
  induction l with
  | nil => rfl
  | cons c rest ih =>
    have hc := h c (List.mem_cons_self c rest)
    have hrest := ih (fun s hs => h s (List.mem_cons_of_mem c hs))
    simp [BroadcastToAllClients, hrest, hc]

/-- A broadcast over a registry holding exactly one full queue delivers
the message to every other queue and evicts exactly the full one,
closing it and delivering nothing to it. -/
theorem broadcast_evict (pre post : List Session) (f : Session) (m : Bytes)
    (hf : f.cap ≤ f.queue.length)
    (hok : ∀ s ∈ pre ++ post, s.queue.length < s.cap) :
    BroadcastToAllClients (pre ++ f :: post) m =
      ((pre ++ post).map (fun s => enqueue s m), [{ f with closed := true }]) := by
  induction pre with
  | nil =>
    have hpost : ∀ s ∈ post, s.queue.length < s.cap := by
      intro s hs; exact hok s (by simpa using hs)
    simp [BroadcastToAllClients, broadcast_ok post m hpost, Nat.not_lt_of_le hf]
  | cons c rest ih =>
    have hc : c.queue.length < c.cap := hok c (by simp)
    have hrest : ∀ s ∈ rest ++ post, s.queue.length < s.cap := by
      intro s hs; exact hok s (by simp [List.mem_append] at hs ⊢; tauto)
    simp [BroadcastToAllClients, ih hrest, hc]

/-- A blocking send to an id not present in the registry changes nothing. -/
theorem sendBlocking_absent (l : List Session) (i : String) (b : Bytes)
    (h : ∀ s ∈ l, s.id ≠ i) :
    sendBlocking l i b = l := by
  induction l with
  | nil => rfl
  | cons c rest ih =>
    have hc : ¬ (c.id == i) = true := by
      simpa using h c (List.mem_cons_self c rest)
    simp only [sendBlocking, List.map_cons, if_neg hc]
    have := ih (fun s hs => h s (List.mem_cons_of_mem c hs))
    simpa [sendBlocking] using this

/-- A blocking send to the id of the distinguished member appends to
exactly that queue. -/
theorem sendBlocking_split (pre post : List Session) (c : Session) (b : Bytes)
    (hpre : ∀ s ∈ pre, s.id ≠ c.id) (hpost : ∀ s ∈ post, s.id ≠ c.id) :
    sendBlocking (pre ++ c :: post) c.id b = pre ++ enqueue c b :: post := by
  have h1 : sendBlocking pre c.id b = pre := sendBlocking_absent pre c.id b hpre
  have h2 : sendBlocking post c.id b = post := sendBlocking_absent post c.id b hpost
  simp only [sendBlocking, List.map_append, List.map_cons] at *
  rw [h1, h2, if_pos (by simp)]

/-- Finding by id in a registry whose earlier members have other ids
yields the distinguished member. -/
theorem find_split (pre post : List Session) (s : Session) (i : String)
    (hpre : ∀ t ∈ pre, t.id ≠ i) (hs : s.id = i) :
    (pre ++ s :: post).find? (fun t => t.id == i) = some s := by
  induction pre with
  | nil => simp [List.find?_cons, hs]
  | cons c rest ih =>
    have hc : ¬ (c.id == i) = true := by
      simpa using hpre c (List.mem_cons_self c rest)
    have := ih (fun t ht => hpre t (List.mem_cons_of_mem c ht))
    simpa [List.find?_cons, hc] using this

/-- Finding by an id no member has fails. -/
theorem find_absent (l : List Session) (i : String)
    (h : ∀ t ∈ l, t.id ≠ i) :
    l.find? (fun t => t.id == i) = none := by
  induction l with
  | nil => rfl
  | cons c rest ih =>
    have hc : ¬ (c.id == i) = true := by
      simpa using h c (List.mem_cons_self c rest)
    have := ih (fun t ht => h t (List.mem_cons_of_mem c ht))
    simpa [List.find?_cons, hc] using this

/-- Deleting by id from a registry with distinct ids removes exactly
the distinguished member. -/
theorem filter_split (pre post : List Session) (s : Session) (i : String)
    (hpre : ∀ t ∈ pre, t.id ≠ i) (hpost : ∀ t ∈ post, t.id ≠ i) (hs : s.id = i) :
    (pre ++ s :: post).filter (fun t => !(t.id == i)) = pre ++ post := by
  have h1 : pre.filter (fun t => !(t.id == i)) = pre := by
    apply List.filter_eq_self.mpr
    intro t ht; simpa using hpre t ht
  have h2 : post.filter (fun t => !(t.id == i)) = post := by
    apply List.filter_eq_self.mpr
    intro t ht; simpa using hpost t ht
  simp [List.filter_append, List.filter_cons, hs, h1, h2]

/-- Enqueuing changes only the queue of a session. -/
@[simp] theorem enqueue_id (s : Session) (b : Bytes) : (enqueue s b).id = s.id := rfl

@[simp] theorem enqueue_data (s : Session) (b : Bytes) : (enqueue s b).data = s.data := rfl

@[simp] theorem enqueue_cap (s : Session) (b : Bytes) : (enqueue s b).cap = s.cap := rfl

@[simp] theorem enqueue_closed (s : Session) (b : Bytes) : (enqueue s b).closed = s.closed := rfl

@[simp] theorem enqueue_queue (s : Session) (b : Bytes) : (enqueue s b).queue = s.queue ++ [b] := rfl

/-- The step-2 loop of HandleUserData: walking an iteration list sends
to the new client one user-added message per listed session of another
id whose marshalling succeeds, in list order, touching no other queue,
and records every constructed message, dropped or sent. -/
theorem step2_foldl (marshal : Message → Option Bytes) (l : List Session)
    (pre post : List Session) (c : Session) (ms : List Message)
    (hpre : ∀ s ∈ pre, s.id ≠ c.id) (hpost : ∀ s ∈ post, s.id ≠ c.id) :
    l.foldl (existingUserStep marshal c.id) (pre ++ c :: post, ms) =
      (pre ++ { c with queue := c.queue ++ (l.filter (fun p => !(p.id == c.id))).filterMap (fun p => marshal (userAddedMsg p.data)) } :: post,
       ms ++ (l.filter (fun p => !(p.id == c.id))).map (fun p => userAddedMsg p.data)) := by
  induction l generalizing c ms with
  | nil => simp
  | cons p rest ih =>
    by_cases hp : p.id = c.id
    · rw [List.foldl_cons, existingUserStep, if_pos (by simp [hp])]
      rw [ih c ms hpre hpost]
      simp [List.filter_cons, hp]
    · have hp' : (p.id == c.id) = false := by simpa using hp
      rw [List.foldl_cons, existingUserStep, if_neg (by simp [hp'])]
      cases hm : marshal (userAddedMsg p.data) with
      | none =>
        rw [ih c (ms ++ [userAddedMsg p.data]) hpre hpost]
        simp [List.filter_cons, hp', hm]
      | some pb =>
        have hsplit := sendBlocking_split pre post c pb hpre hpost
        simp only [hsplit]
        have ih2 := ih (enqueue c pb) (ms ++ [userAddedMsg p.data])
          (by simpa using hpre) (by simpa using hpost)
        simp only [enqueue_id] at ih2
        rw [ih2]
        simp [List.filter_cons, hp', hm]

/-- HandleUserData characterized, for any marshaller succeeding on the
user-data message and the announcement: the new client receives first
its own user-data bytes, then one user-added message per other
registered session whose marshalling succeeds (registry order), and
then the announcement is broadcast to the whole registry, the new
client included; every constructed message is recorded in order. -/
theorem HandleUserData_eq (marshal : Message → Option Bytes)
    (pre post : List Session) (c : Session)
    (hpre : ∀ s ∈ pre, s.id ≠ c.id) (hpost : ∀ s ∈ post, s.id ≠ c.id)
    (b1 b3 : Bytes)
    (h1 : marshal (userDataMsg c) = some b1)
    (h3 : marshal (userAddedMsg c.data) = some b3) :
    HandleUserData marshal (pre ++ c :: post) c =
      ((BroadcastToAllClients (pre ++ { c with queue := c.queue ++ b1 :: (pre ++ post).filterMap (fun p => marshal (userAddedMsg p.data)) } :: post) b3).1,
       (BroadcastToAllClients (pre ++ { c with queue := c.queue ++ b1 :: (pre ++ post).filterMap (fun p => marshal (userAddedMsg p.data)) } :: post) b3).2,
       userDataMsg c :: (pre ++ post).map (fun p => userAddedMsg p.data) ++ [userAddedMsg c.data]) := by
  have hfold := step2_foldl marshal (pre ++ enqueue c b1 :: post) pre post (enqueue c b1) []
      (by simpa using hpre) (by simpa using hpost)
  simp only [enqueue_id] at hfold
  have hfilter : (pre ++ enqueue c b1 :: post).filter (fun p => !(p.id == c.id)) = pre ++ post :=
    filter_split pre post (enqueue c b1) c.id hpre hpost (by simp)
  rw [hfilter] at hfold
  unfold HandleUserData
  rw [h1]
  simp only [sendBlocking_split pre post c b1 hpre hpost, hfold, h3]
  simp [List.append_assoc]

/-- Claim C1: broadcasting one envelope with K registered sessions
delivers it to all K outbound queues when none is full; when exactly
one queue is at capacity, that session is evicted, closed, removed and
receives nothing, the other K-1 queues each receive the envelope, and
the registry shrinks by exactly one, with delivery to the others never
stalled. -/
theorem C1_broadcast_backpressure (m : Bytes) :
    (∀ clients : List Session, (∀ s ∈ clients, s.queue.length < s.cap) →
      BroadcastToAllClients clients m = (clients.map (fun s => enqueue s m), []) ∧
      (BroadcastToAllClients clients m).1.length = clients.length) ∧
    (∀ pre post (f : Session), f.cap ≤ f.queue.length →
      (∀ s ∈ pre ++ post, s.queue.length < s.cap) →
      BroadcastToAllClients (pre ++ f :: post) m =
        ((pre ++ post).map (fun s => enqueue s m), [{ f with closed := true }]) ∧
      (BroadcastToAllClients (pre ++ f :: post) m).1.length + 1 =
        (pre ++ f :: post).length) := by
  constructor
  · intro clients h
    have hb := broadcast_ok clients m h
    exact ⟨hb, by rw [hb]; simp⟩
  · intro pre post f hf hok
    have hb := broadcast_evict pre post f m hf hok
    refine ⟨hb, ?_⟩
    rw [hb]
    simp
    omega

/-- Witness for C1 at a concrete registry: both the all-serviceable and
the one-full scenario. -/
theorem C1_witness :
    BroadcastToAllClients [sessA, sessB] contentRaw =
      ([enqueue sessA contentRaw, enqueue sessB contentRaw], []) ∧
    BroadcastToAllClients [sessA, sessFull, sessB] contentRaw =
      ([enqueue sessA contentRaw, enqueue sessB contentRaw],
       [{ sessFull with closed := true }]) := by
  constructor
  · exact ((C1_broadcast_backpressure contentRaw).1 [sessA, sessB] (by decide)).1
  · exact (by exact ((C1_broadcast_backpressure contentRaw).2 [sessA] [sessB] sessFull
      (by decide) (by decide)).1)

/-- Claim C2 as stated is false on the code: the fan-out loop does not
exclude the sender, so with A, B, C registered and B forwarding one
content frame, B receives one copy of its own broadcast. -/
theorem C2_counterexample :
    (HandleClientReadStep [sessA, sessB, sessC] contentRaw).1 =
      [enqueue sessA contentRaw, enqueue sessB contentRaw, enqueue sessC contentRaw] ∧
    (enqueue sessB contentRaw).queue = [contentRaw] ∧
    [contentRaw] ≠ ([] : List Bytes) := by
  refine ⟨by decide, rfl, by decide⟩

/-- Claim C2 amended: with sessions A, B, C registered and no queue
full, one inbound content frame from B is delivered byte-identical,
exactly once and with no transformation, to the queues of A and of C,
and B also receives exactly one identical copy of its own broadcast
(sender exclusion is client-side, not done by the fan-out). -/
theorem C2_contentRoundTrip (a b c : Session) (raw : Bytes)
    (hok : ∀ s ∈ [a, b, c], s.queue.length < s.cap) :
    HandleClientReadStep [a, b, c] raw =
      ([enqueue a raw, enqueue b raw, enqueue c raw], []) := by
  have hb := broadcast_ok [a, b, c] raw hok
  simpa [HandleClientReadStep] using hb

/-- Witness for the amended C2 at the concrete three-session registry. -/
theorem C2_witness :
    HandleClientReadStep [sessA, sessB, sessC] contentRaw =
      ([enqueue sessA contentRaw, enqueue sessB contentRaw, enqueue sessC contentRaw], []) :=
  C2_contentRoundTrip sessA sessB sessC contentRaw (by decide)

/-- Claim C5: unregistering a session that is not currently a member is
a no-op: the registry is unchanged, no queue is closed, no message is
constructed or broadcast, and no fault is raised. -/
theorem C5_unregister_nonmember (clients : List Session) (c : Session)
    (h : ∀ s ∈ clients, s.id ≠ c.id) :
    unregisterStep jsonMarshal clients c = (clients, [], []) := by
  unfold unregisterStep
  rw [find_absent clients c.id h]

/-- Witness for C5: unregistering the never-registered session C. -/
theorem C5_witness :
    unregisterStep jsonMarshal [sessA, sessB] sessC = ([sessA, sessB], [], []) :=
  C5_unregister_nonmember [sessA, sessB] sessC (by decide)

/-- Claim C4: unregistering a current member removes it from the
membership set, closes its outbound queue, and causes exactly one
user-removed broadcast carrying its identity Data, delivered once to
every remaining queue with room; in the sequentialized arbiter the
close happens before the broadcast. -/
theorem C4_unregister_member (pre post : List Session) (s c : Session)
    (hs : s.id = c.id)
    (hpre : ∀ t ∈ pre, t.id ≠ c.id) (hpost : ∀ t ∈ post, t.id ≠ c.id)
    (hok : ∀ t ∈ pre ++ post, t.queue.length < t.cap) :
    unregisterStep jsonMarshal (pre ++ s :: post) c =
      ((pre ++ post).map (fun t => enqueue t (enc (userRemovedMsg c))),
       [{ s with closed := true }],
       [userRemovedMsg c]) := by
  unfold unregisterStep
  rw [find_split pre post s c.id hpre hs]
  simp only [filter_split pre post s c.id hpre hpost hs]
  unfold HandleDeleteUser
  simp only [jsonMarshal]
  rw [broadcast_ok (pre ++ post) _ hok]

/-- Witness for C4: unregistering B from the registry A, B, C. -/
theorem C4_witness :
    unregisterStep jsonMarshal [sessA, sessB, sessC] sessB =
      (([sessA] ++ [sessC]).map (fun t => enqueue t (enc (userRemovedMsg sessB))),
       [{ sessB with closed := true }],
       [userRemovedMsg sessB]) := by
  exact C4_unregister_member [sessA] [sessC] sessB sessB rfl
    (by decide) (by decide) (by decide)

/-- Claim C10: a backpressure eviction during broadcast closes the
queue of the evicted session, removes it from the membership set and
delivers nothing to it, while every surviving queue receives exactly
the broadcast payload and nothing else; no user-removed envelope is
generated on this path, user-removed messages originating only in the
unregister path and always carrying the identity of the session that
path removes. -/
theorem C10_eviction_silent (pre post : List Session) (f : Session) (m : Bytes)
    (hf : f.cap ≤ f.queue.length)
    (hok : ∀ s ∈ pre ++ post, s.queue.length < s.cap) :
    BroadcastToAllClients (pre ++ f :: post) m =
      ((pre ++ post).map (fun s => enqueue s m), [{ f with closed := true }]) ∧
    ({ f with closed := true } : Session).queue = f.queue ∧
    (∀ (marshal : Message → Option Bytes) (clients : List Session) (c : Session),
      (unregisterStep marshal clients c).2.2 = [] ∨
      (unregisterStep marshal clients c).2.2 = [userRemovedMsg c]) := by
  refine ⟨broadcast_evict pre post f m hf hok, rfl, ?_⟩
  intro marshal clients c
  unfold unregisterStep
  cases clients.find? (fun s => s.id == c.id) with
  | none => exact Or.inl rfl
  | some s =>
    right
    unfold HandleDeleteUser
    cases marshal (userRemovedMsg c) <;> rfl

/-- Witness for C10: evicting the full session amid A and B. -/
theorem C10_witness :
    BroadcastToAllClients [sessA, sessFull, sessB] contentRaw =
      ([enqueue sessA contentRaw, enqueue sessB contentRaw],
       [{ sessFull with closed := true }]) ∧
    ({ sessFull with closed := true } : Session).queue = sessFull.queue := by
  have h := C10_eviction_silent [sessA] [sessB] sessFull contentRaw
    (by decide) (by decide)
  exact ⟨by exact h.1, h.2.1⟩

/-- Claim C3: admission of a new session S with existing peers: S
receives exactly one user-data envelope carrying its own identity,
then exactly one user-added envelope per peer (registry order), and
then the user-added announcement about itself; each peer receives
exactly one user-added envelope carrying the identity of S; as seen by
S the user-data delivery precedes the per-peer deliveries, which
precede the broadcast announcement; nobody is evicted. -/
theorem C3_admission (pre post : List Session) (c : Session)
    (hpre : ∀ s ∈ pre, s.id ≠ c.id) (hpost : ∀ s ∈ post, s.id ≠ c.id)
    (hcap : c.queue.length + ((pre ++ post).length + 1) < c.cap)
    (hok : ∀ s ∈ pre ++ post, s.queue.length < s.cap) :
    HandleUserData jsonMarshal (pre ++ c :: post) c =
      (pre.map (fun p => enqueue p (enc (userAddedMsg c.data))) ++
        { c with queue := c.queue ++ enc (userDataMsg c) :: ((pre ++ post).map (fun p => enc (userAddedMsg p.data)) ++ [enc (userAddedMsg c.data)]) } ::
        post.map (fun p => enqueue p (enc (userAddedMsg c.data))),
       [],
       userDataMsg c :: ((pre ++ post).map (fun p => userAddedMsg p.data) ++ [userAddedMsg c.data])) := by
  have h := HandleUserData_eq jsonMarshal pre post c hpre hpost
    (enc (userDataMsg c)) (enc (userAddedMsg c.data)) rfl rfl
  have hfm : (pre ++ post).filterMap (fun p => jsonMarshal (userAddedMsg p.data)) =
      (pre ++ post).map (fun p => enc (userAddedMsg p.data)) := by
    induction (pre ++ post) with
    | nil => rfl
    | cons a t ih =>
      simp only [jsonMarshal] at ih ⊢
      simp only [List.filterMap_cons, List.map_cons, ih]
  rw [hfm] at h
  set c2 : Session :=
    { c with queue := c.queue ++ enc (userDataMsg c) :: (pre ++ post).map (fun p => enc (userAddedMsg p.data)) } with hc2
  have hok2 : ∀ s ∈ pre ++ c2 :: post, s.queue.length < s.cap := by
    intro s hsmem
    rcases List.mem_append.mp hsmem with hl | hr
    · exact hok s (List.mem_append.mpr (Or.inl hl))
    · rcases List.mem_cons.mp hr with he | ht
      · subst he
        simp only [hc2, List.length_append, List.length_cons, List.length_map]
        simp at hcap ⊢
        omega
      · exact hok s (List.mem_append.mpr (Or.inr ht))
  rw [broadcast_ok (pre ++ c2 :: post) (enc (userAddedMsg c.data)) hok2] at h
  rw [h]
  simp [hc2, enqueue, List.append_assoc]

/-- Witness for C3: admission of B with peers A and C. -/
theorem C3_witness :
    HandleUserData jsonMarshal [sessA, sessB, sessC] sessB =
      ([sessA].map (fun p => enqueue p (enc (userAddedMsg sessB.data))) ++
        { sessB with queue := sessB.queue ++ enc (userDataMsg sessB) :: (([sessA] ++ [sessC]).map (fun p => enc (userAddedMsg p.data)) ++ [enc (userAddedMsg sessB.data)]) } ::
        [sessC].map (fun p => enqueue p (enc (userAddedMsg sessB.data))),
       [],
       userDataMsg sessB :: (([sessA] ++ [sessC]).map (fun p => userAddedMsg p.data) ++ [userAddedMsg sessB.data])) := by
  exact C3_admission [sessA] [sessC] sessB (by decide) (by decide) (by decide) (by decide)

/-- Claim C7 as stated is false on the code: a serialization failure of
the initial user-data message makes HandleUserData return at once,
suppressing the whole remaining admission sequence: with peer A
registered and B admitted, the registry is untouched, so A receives no
user-added envelope about B. -/
theorem C7_counterexample :
    HandleUserData marshalNoUserData [sessA, sessB] sessB =
      ([sessA, sessB], [], [userDataMsg sessB]) ∧
    sessA.queue = [] := ⟨by decide, rfl⟩

/-- Claim C7 amended: a serialization failure of one per-peer
user-added message during admission drops exactly that message and the
sequence continues, and a failure of the user-removed message drops
only that broadcast while removal and queue close still happen; but a
failure of the initial user-data message aborts the entire remaining
admission sequence. -/
theorem C7_marshal_failures :
    (∀ (marshal : Message → Option Bytes) (clients : List Session) (c : Session),
      marshal (userDataMsg c) = none →
      HandleUserData marshal clients c = (clients, [], [userDataMsg c])) ∧
    (∀ (marshal : Message → Option Bytes) (pre post : List Session) (c : Session)
      (b1 b3 : Bytes),
      (∀ s ∈ pre, s.id ≠ c.id) → (∀ s ∈ post, s.id ≠ c.id) →
      marshal (userDataMsg c) = some b1 →
      marshal (userAddedMsg c.data) = some b3 →
      c.queue.length + (((pre ++ post).filterMap (fun p => marshal (userAddedMsg p.data))).length + 1) < c.cap →
      (∀ s ∈ pre ++ post, s.queue.length < s.cap) →
      HandleUserData marshal (pre ++ c :: post) c =
        (pre.map (fun p => enqueue p b3) ++
          { c with queue := c.queue ++ b1 :: ((pre ++ post).filterMap (fun p => marshal (userAddedMsg p.data)) ++ [b3]) } ::
          post.map (fun p => enqueue p b3),
         [],
         userDataMsg c :: ((pre ++ post).map (fun p => userAddedMsg p.data) ++ [userAddedMsg c.data]))) ∧
    (∀ (marshal : Message → Option Bytes) (pre post : List Session) (s c : Session),
      s.id = c.id → (∀ t ∈ pre, t.id ≠ c.id) → (∀ t ∈ post, t.id ≠ c.id) →
      marshal (userRemovedMsg c) = none →
      unregisterStep marshal (pre ++ s :: post) c =
        (pre ++ post, [{ s with closed := true }], [userRemovedMsg c])) := by
  refine ⟨?_, ?_, ?_⟩
  · intro marshal clients c h
    unfold HandleUserData
    rw [h]
  · intro marshal pre post c b1 b3 hpre hpost h1 h3 hcap hok
    have h := HandleUserData_eq marshal pre post c hpre hpost b1 b3 h1 h3
    set c2 : Session :=
      { c with queue := c.queue ++ b1 :: (pre ++ post).filterMap (fun p => marshal (userAddedMsg p.data)) } with hc2
    have hok2 : ∀ t ∈ pre ++ c2 :: post, t.queue.length < t.cap := by
      intro t htmem
      rcases List.mem_append.mp htmem with hl | hr
      · exact hok t (List.mem_append.mpr (Or.inl hl))
      · rcases List.mem_cons.mp hr with he | ht
        · subst he
          simp only [hc2, List.length_append, List.length_cons]
          simp at hcap ⊢
          omega
        · exact hok t (List.mem_append.mpr (Or.inr ht))
    rw [broadcast_ok (pre ++ c2 :: post) b3 hok2] at h
    rw [h]
    simp [hc2, enqueue, List.append_assoc]
  · intro marshal pre post s c hs hpre hpost hnone
    unfold unregisterStep
    rw [find_split pre post s c.id hpre hs]
    simp only [filter_split pre post s c.id hpre hpost hs]
    unfold HandleDeleteUser
    rw [hnone]

/-- Witness for the amended C7: admitting B with peers A and C under
the marshaller that drops the user-added message about A, so B learns
only about C but the announcement still reaches everyone; and
unregistering B under the marshaller that cannot serialize
user-removed, so B is removed and closed with no broadcast. -/
theorem C7_witness :
    HandleUserData marshalDropA ([sessA] ++ sessB :: [sessC]) sessB =
      ([sessA].map (fun p => enqueue p (enc (userAddedMsg sessB.data))) ++
        { sessB with queue := sessB.queue ++ enc (userDataMsg sessB) :: (([sessA] ++ [sessC]).filterMap (fun p => marshalDropA (userAddedMsg p.data)) ++ [enc (userAddedMsg sessB.data)]) } ::
        [sessC].map (fun p => enqueue p (enc (userAddedMsg sessB.data))),
       [],
       userDataMsg sessB :: (([sessA] ++ [sessC]).map (fun p => userAddedMsg p.data) ++ [userAddedMsg sessB.data])) ∧
    unregisterStep marshalNoRemoved ([sessA] ++ sessB :: [sessC]) sessB =
      ([sessA] ++ [sessC], [{ sessB with closed := true }], [userRemovedMsg sessB]) := by
  constructor
  · exact C7_marshal_failures.2.1 marshalDropA [sessA] [sessC] sessB
      (enc (userDataMsg sessB)) (enc (userAddedMsg sessB.data))
      (by decide) (by decide) (by decide) (by decide) (by decide) (by decide)
  · exact C7_marshal_failures.2.2 marshalNoRemoved [sessA] [sessC] sessB sessB rfl
      (by decide) (by decide) (by decide)

/-- Claim C8 as stated is false on the code: the name and color
assignment reads the process-global PRNG and is not a function of the
request (which is not even an argument), so two invocations on the
same request, landing on different PRNG draws, yield different names
and different colors. -/
theorem C8_counterexample :
    0 < randomNames.length ∧ 1 < randomNames.length ∧
    GetRandomName 0 ≠ GetRandomName 1 ∧
    (0 : Nat) < 360 ∧ (1 : Nat) < 360 ∧
    GetRandomColor 0 ≠ GetRandomColor 1 := by decide

/-- Claim C8 amended: identity assignment is deterministic only in the
PRNG draw, not in the request: the name is always drawn from the fixed
five-entry pool and the color is always an hsl value of the drawn hue
with fixed saturation 70% and lightness 60%. -/
theorem C8_draw_determined (d h : Nat) (hd : d < randomNames.length) :
    GetRandomName d ∈ randomNames ∧
    GetRandomColor h = "hsl(" ++ toString h ++ ", 70%, 60%)" :=
  ⟨(by decide : ∀ x, x < randomNames.length → GetRandomName x ∈ randomNames) d hd, rfl⟩

/-- Witness for the amended C8 at draw 2 and hue 123. -/
theorem C8_witness :
    GetRandomName 2 ∈ randomNames ∧ GetRandomColor 123 = "hsl(123, 70%, 60%)" := by
  have h := C8_draw_determined 2 123 (by decide)
  exact ⟨h.1, h.2.trans (by decide)⟩

/-- Chaining identity preservation through two stages. -/
theorem pres_trans {l1 l2 : List Session} {t : Session}
    (h1 : ∃ u ∈ l2, t.id = u.id ∧ t.data = u.data)
    (h2 : ∀ u ∈ l2, ∃ s ∈ l1, u.id = s.id ∧ u.data = s.data) :
    ∃ s ∈ l1, t.id = s.id ∧ t.data = s.data := by
  obtain ⟨u, hu, hti, htd⟩ := h1
  obtain ⟨s, hs, hui, hud⟩ := h2 u hu
  exact ⟨s, hs, hti.trans hui, htd.trans hud⟩

/-- Fan-out preserves the id and the identity Data of every session,
surviving or evicted. -/
theorem pres_broadcast (l : List Session) (m : Bytes) :
    ∀ t ∈ (BroadcastToAllClients l m).1 ++ (BroadcastToAllClients l m).2,
      ∃ s ∈ l, t.id = s.id ∧ t.data = s.data := by
  induction l with
  | nil => intro t ht; simp [BroadcastToAllClients] at ht
  | cons c rest ih =>
    intro t ht
    by_cases hc : c.queue.length < c.cap
    · simp only [BroadcastToAllClients, if_pos hc] at ht
      rcases List.mem_append.mp ht with h1 | h2
      · rcases List.mem_cons.mp h1 with he | h1
        · subst he; exact ⟨c, List.mem_cons_self c rest, rfl, rfl⟩
        · obtain ⟨s, hsl, hp⟩ := ih t (List.mem_append.mpr (Or.inl h1))
          exact ⟨s, List.mem_cons_of_mem c hsl, hp⟩
      · obtain ⟨s, hsl, hp⟩ := ih t (List.mem_append.mpr (Or.inr h2))
        exact ⟨s, List.mem_cons_of_mem c hsl, hp⟩
    · simp only [BroadcastToAllClients, if_neg hc] at ht
      rcases List.mem_append.mp ht with h1 | h2
      · obtain ⟨s, hsl, hp⟩ := ih t (List.mem_append.mpr (Or.inl h1))
        exact ⟨s, List.mem_cons_of_mem c hsl, hp⟩
      · rcases List.mem_cons.mp h2 with he | h2
        · subst he; exact ⟨c, List.mem_cons_self c rest, rfl, rfl⟩
        · obtain ⟨s, hsl, hp⟩ := ih t (List.mem_append.mpr (Or.inr h2))
          exact ⟨s, List.mem_cons_of_mem c hsl, hp⟩

/-- A blocking send preserves the id and identity Data of every session. -/
theorem pres_sendBlocking (l : List Session) (i : String) (b : Bytes) :
    ∀ t ∈ sendBlocking l i b, ∃ s ∈ l, t.id = s.id ∧ t.data = s.data := by
  intro t ht
  rcases List.mem_map.mp ht with ⟨s, hsl, heq⟩
  refine ⟨s, hsl, ?_⟩
  by_cases h : (s.id == i) = true
  · rw [if_pos h] at heq; rw [← heq]; exact ⟨rfl, rfl⟩
  · rw [if_neg h] at heq; rw [← heq]; exact ⟨rfl, rfl⟩

/-- The step-2 loop preserves the id and identity Data of every
session of the registry it threads. -/
theorem pres_step2 (marshal : Message → Option Bytes) (cid : String)
    (l : List Session) (acc : List Session × List Message) :
    ∀ t ∈ (l.foldl (existingUserStep marshal cid) acc).1,
      ∃ s ∈ acc.1, t.id = s.id ∧ t.data = s.data := by
  induction l generalizing acc with
  | nil => intro t ht; exact ⟨t, ht, rfl, rfl⟩
  | cons p rest ih =>
    intro t ht
    rw [List.foldl_cons] at ht
    have hstep : ∀ u ∈ (existingUserStep marshal cid acc p).1,
        ∃ s ∈ acc.1, u.id = s.id ∧ u.data = s.data := by
      intro u hu
      unfold existingUserStep at hu
      by_cases hp : (p.id == cid) = true
      · rw [if_pos hp] at hu; exact ⟨u, hu, rfl, rfl⟩
      · rw [if_neg hp] at hu
        cases hm : marshal (userAddedMsg p.data) with
        | none => simp only [hm] at hu; exact ⟨u, hu, rfl, rfl⟩
        | some pb =>
          simp only [hm] at hu
          exact pres_sendBlocking acc.1 cid pb u hu
    exact pres_trans (ih (existingUserStep marshal cid acc p) t ht) hstep

/-- The step-2 loop only constructs user-added messages about sessions
of its iteration list, on top of those already accumulated. -/
theorem msgs_step2 (marshal : Message → Option Bytes) (cid : String)
    (l : List Session) (acc : List Session × List Message) :
    ∀ mg ∈ (l.foldl (existingUserStep marshal cid) acc).2,
      mg ∈ acc.2 ∨ ∃ p ∈ l, mg = userAddedMsg p.data := by
  induction l generalizing acc with
  | nil => intro mg hmg; exact Or.inl hmg
  | cons p rest ih =>
    intro mg hmg
    rw [List.foldl_cons] at hmg
    rcases ih (existingUserStep marshal cid acc p) mg hmg with hin | ⟨q, hq, he⟩
    · unfold existingUserStep at hin
      by_cases hp : (p.id == cid) = true
      · rw [if_pos hp] at hin; exact Or.inl hin
      · rw [if_neg hp] at hin
        cases hm : marshal (userAddedMsg p.data) with
        | none =>
          simp only [hm] at hin
          rcases List.mem_append.mp hin with h1 | h2
          · exact Or.inl h1
          · exact Or.inr ⟨p, List.mem_cons_self p rest, List.mem_singleton.mp h2⟩
        | some pb =>
          simp only [hm] at hin
          rcases List.mem_append.mp hin with h1 | h2
          · exact Or.inl h1
          · exact Or.inr ⟨p, List.mem_cons_self p rest, List.mem_singleton.mp h2⟩
    · exact Or.inr ⟨q, List.mem_cons_of_mem p hq, he⟩

/-- Claim C9: identity attributes (id and the Data set at admission)
are never mutated by any later operation: register, broadcast,
admission and unregister all preserve the id and Data of every session
they return, delivered-to, surviving or removed; and every presence
message the system constructs carries an admission identity: user-data
and user-added messages carry the Data of the admitted client or of a
registered peer, and user-removed messages carry exactly the Data of
the unregistered client. -/
theorem C9_identity_immutable (marshal : Message → Option Bytes)
    (clients : List Session) (c : Session) (m : Bytes) :
    (∀ t ∈ registerStep clients c, t ∈ clients ∨ t = c) ∧
    (∀ t ∈ (BroadcastToAllClients clients m).1 ++ (BroadcastToAllClients clients m).2,
      ∃ s ∈ clients, t.id = s.id ∧ t.data = s.data) ∧
    (∀ t ∈ (HandleUserData marshal clients c).1 ++ (HandleUserData marshal clients c).2.1,
      ∃ s ∈ clients, t.id = s.id ∧ t.data = s.data) ∧
    (∀ mg ∈ (HandleUserData marshal clients c).2.2,
      mg.data = c.data ∨ ∃ s ∈ clients, mg.data = s.data) ∧
    (∀ t ∈ (unregisterStep marshal clients c).1 ++ (unregisterStep marshal clients c).2.1,
      ∃ s ∈ clients, t.id = s.id ∧ t.data = s.data) ∧
    (∀ mg ∈ (unregisterStep marshal clients c).2.2,
      mg.type = "user-removed" ∧ mg.data = c.data) := by
  refine ⟨?_, pres_broadcast clients m, ?_, ?_, ?_, ?_⟩
  · intro t ht
    unfold registerStep at ht
    by_cases h : clients.any (fun s => s.id == c.id) = true
    · rw [if_pos h] at ht; exact Or.inl ht
    · rw [if_neg h] at ht
      rcases List.mem_append.mp ht with h1 | h2
      · exact Or.inl h1
      · exact Or.inr (List.mem_singleton.mp h2)
  · intro t ht
    unfold HandleUserData at ht
    cases hm1 : marshal (userDataMsg c) with
    | none =>
      simp only [hm1, List.append_nil] at ht
      exact ⟨t, ht, rfl, rfl⟩
    | some b1 =>
      simp only [hm1] at ht
      cases hm3 : marshal (userAddedMsg c.data) with
      | none =>
        simp only [hm3, List.append_nil] at ht
        exact pres_trans
          (pres_step2 marshal c.id (sendBlocking clients c.id b1)
            (sendBlocking clients c.id b1, []) t ht)
          (pres_sendBlocking clients c.id b1)
      | some b3 =>
        simp only [hm3] at ht
        refine pres_trans (pres_trans ?_ (pres_step2 marshal c.id
          (sendBlocking clients c.id b1) (sendBlocking clients c.id b1, [])))
          (pres_sendBlocking clients c.id b1)
        exact pres_broadcast _ b3 t ht
  · intro mg hmg
    unfold HandleUserData at hmg
    cases hm1 : marshal (userDataMsg c) with
    | none =>
      simp only [hm1] at hmg
      rw [List.mem_singleton.mp hmg]
      exact Or.inl rfl
    | some b1 =>
      simp only [hm1] at hmg
      have hmid : mg ∈ userDataMsg c ::
          ((sendBlocking clients c.id b1).foldl (existingUserStep marshal c.id)
            (sendBlocking clients c.id b1, [])).2 ++ [userAddedMsg c.data] := by
        cases hm3 : marshal (userAddedMsg c.data) with
        | none => simpa only [hm3] using hmg
        | some b3 => simpa only [hm3] using hmg
      rcases List.mem_cons.mp hmid with he | hin
      · rw [he]; exact Or.inl rfl
      rcases List.mem_append.mp hin with h2 | h3
      · rcases msgs_step2 marshal c.id (sendBlocking clients c.id b1)
          (sendBlocking clients c.id b1, []) mg h2 with habs | ⟨p, hp, he⟩
        · cases habs
        · obtain ⟨s, hs, _, hd⟩ := pres_sendBlocking clients c.id b1 p hp
          exact Or.inr ⟨s, hs, by rw [he]; exact hd⟩
      · rw [List.mem_singleton.mp h3]; exact Or.inl rfl
  · intro t ht
    unfold unregisterStep at ht
    cases hfind : clients.find? (fun s => s.id == c.id) with
    | none =>
      simp only [hfind, List.append_nil] at ht
      exact ⟨t, ht, rfl, rfl⟩
    | some s =>
      have hsmem : s ∈ clients := List.mem_of_find?_eq_some hfind
      simp only [hfind] at ht
      have hrest : ∀ u ∈ clients.filter (fun x => !(x.id == c.id)),
          ∃ v ∈ clients, u.id = v.id ∧ u.data = v.data := by
        intro u hu
        exact ⟨u, List.mem_of_mem_filter hu, rfl, rfl⟩
      cases hm : marshal (userRemovedMsg c) with
      | none =>
        simp only [HandleDeleteUser, hm] at ht
        rcases List.mem_append.mp ht with h1 | h2
        · exact hrest t h1
        · rw [List.mem_singleton.mp h2]; exact ⟨s, hsmem, rfl, rfl⟩
      | some b =>
        simp only [HandleDeleteUser, hm] at ht
        rcases List.mem_append.mp ht with h1 | h2
        · exact pres_trans (pres_broadcast _ b t (List.mem_append.mpr (Or.inl h1))) hrest
        · rcases List.mem_cons.mp h2 with he | h2
          · rw [he]; exact ⟨s, hsmem, rfl, rfl⟩
          · exact pres_trans (pres_broadcast _ b t (List.mem_append.mpr (Or.inr h2))) hrest
  · intro mg hmg
    unfold unregisterStep at hmg
    cases hfind : clients.find? (fun s => s.id == c.id) with
    | none => simp only [hfind] at hmg; cases hmg
    | some s =>
      simp only [hfind] at hmg
      cases hm : marshal (userRemovedMsg c) with
      | none =>
        simp only [HandleDeleteUser, hm] at hmg
        rw [List.mem_singleton.mp hmg]; exact ⟨rfl, rfl⟩
      | some b =>
        simp only [HandleDeleteUser, hm] at hmg
        rw [List.mem_singleton.mp hmg]; exact ⟨rfl, rfl⟩

/-- Witness for C9: the user-removed message of the unregistration of
session B carries exactly the admission Data of B. -/
theorem C9_witness :
    (userRemovedMsg sessB).type = "user-removed" ∧
    (userRemovedMsg sessB).data = sessB.data := by
  have h := (C9_identity_immutable jsonMarshal [sessA, sessB] sessB contentRaw).2.2.2.2.2
  exact h (userRemovedMsg sessB) (by decide)

/-- Ids distribute over registry concatenation. -/
theorem ids_append (l1 l2 : List Session) : ids (l1 ++ l2) = ids l1 ++ ids l2 := by
  simp [ids]

/-- Delivering one message to every queue leaves the ids unchanged. -/
theorem ids_map_enqueue (l : List Session) (m : Bytes) :
    ids (l.map (fun s => enqueue s m)) = ids l := by
  induction l with
  | nil => rfl
  | cons a t ih =>
    simp only [List.map_cons, ids] at ih ⊢
    rw [ih]
    rfl

/-- The membership test fails when the id is not present. -/
theorem any_id_false (cl : List Session) (i : String) (h : i ∉ ids cl) :
    cl.any (fun s => s.id == i) = false := by
  cases hcase : cl.any (fun s => s.id == i) with
  | false => rfl
  | true =>
    obtain ⟨s, hs, hbe⟩ := List.any_eq_true.mp hcase
    exact absurd (List.mem_map.mpr ⟨s, hs, by simpa using hbe⟩) h

/-- Deleting a present id from a registry with distinct ids shrinks it
by exactly one. -/
theorem filter_remove_len (i : String) (s : Session) (hid : s.id = i) :
    ∀ cl : List Session, (ids cl).Nodup → s ∈ cl →
      (cl.filter (fun t => !(t.id == i))).length + 1 = cl.length := by
  intro cl
  induction cl with
  | nil => intro _ hs; cases hs
  | cons a rest ih =>
    intro hn hs
    have hnd : a.id ∉ ids rest ∧ (ids rest).Nodup := by
      simpa [ids, List.nodup_cons] using hn
    rcases List.mem_cons.mp hs with he | hmem
    · subst he
      rw [List.filter_cons, if_neg (by simp [hid])]
      have hrest_eq : rest.filter (fun t => !(t.id == i)) = rest := by
        rw [List.filter_eq_self]
        intro t htm
        have hti : t.id ≠ i := by
          intro hti
          exact hnd.1 (List.mem_map.mpr ⟨t, htm, by rw [hti, hid]⟩)
        simp [hti]
      rw [hrest_eq]
      simp
    · have hai : a.id ≠ i := by
        intro hae
        exact hnd.1 (List.mem_map.mpr ⟨s, hmem, by rw [hid, hae]⟩)
      rw [List.filter_cons, if_pos (by simp [hai])]
      simp only [List.length_cons]
      rw [← ih hnd.2 hmem]

/-- The instrumented Run loop, counted: from a registry of distinct ids
disjoint from the ids of the upcoming register events, with those
register ids distinct and every queue holding headroom for one
delivery per remaining event, the final registry size plus the number
of successful unregistrations equals the initial size plus the number
of register events; the successful unregistration ids are distinct and
each names an initial or registered session. -/
theorem runCount_main : ∀ (evts : List Event) (cl : List Session),
    (∀ s ∈ cl, s.queue.length + evts.length ≤ s.cap) →
    (∀ c : Session, Event.register c ∈ evts → c.queue.length + evts.length ≤ c.cap) →
    (ids cl).Nodup →
    (regIds evts).Nodup →
    (∀ i ∈ regIds evts, i ∉ ids cl) →
    (runCount cl evts).1.length + (runCount cl evts).2.length =
        cl.length + (regIds evts).length ∧
    (runCount cl evts).2.Nodup ∧
    (∀ i ∈ (runCount cl evts).2, i ∈ ids cl ∨ i ∈ regIds evts) := by
  intro evts
  induction evts with
  | nil =>
    intro cl _ _ _ _ _
    exact ⟨by simp [runCount, regIds], by simp [runCount], by simp [runCount]⟩
  | cons e rest ih =>
    intro cl hclcap hcap hclids hreg hdisj
    cases e with
    | register c =>
      have hcid : c.id ∈ regIds (Event.register c :: rest) := by simp [regIds]
      have hnotin : c.id ∉ ids cl := hdisj c.id hcid
      have hany : cl.any (fun s => s.id == c.id) = false := any_id_false cl c.id hnotin
      have hrs : registerStep cl c = cl ++ [c] := by
        unfold registerStep; rw [hany]; simp
      have hregeq : regIds (Event.register c :: rest) = c.id :: regIds rest := by
        simp [regIds]
      rw [hregeq] at hreg hdisj
      have hregtail := List.nodup_cons.mp hreg
      have h1 : ∀ s ∈ cl ++ [c], s.queue.length + rest.length ≤ s.cap := by
        intro s hsm
        rcases List.mem_append.mp hsm with hmem | hmem
        · have := hclcap s hmem
          simp only [List.length_cons] at this
          omega
        · rw [List.mem_singleton.mp hmem]
          have := hcap c (List.mem_cons_self _ _)
          simp only [List.length_cons] at this
          omega
      have h2 : ∀ d : Session, Event.register d ∈ rest →
          d.queue.length + rest.length ≤ d.cap := by
        intro d hd
        have := hcap d (List.mem_cons_of_mem _ hd)
        simp only [List.length_cons] at this
        omega
      have h3 : (ids (cl ++ [c])).Nodup := by
        rw [ids_append, List.nodup_append]
        refine ⟨hclids, by simp [ids], ?_⟩
        intro x hx hx2
        have hxc : x = c.id := by simpa [ids] using hx2
        rw [hxc] at hx
        exact hnotin hx
      have h5 : ∀ i ∈ regIds rest, i ∉ ids (cl ++ [c]) := by
        intro i hi
        rw [ids_append]
        intro hmem
        rcases List.mem_append.mp hmem with hm | hm
        · exact hdisj i (List.mem_cons_of_mem _ hi) hm
        · have hic : i = c.id := by simpa [ids] using hm
          rw [hic] at hi
          exact hregtail.1 hi
      obtain ⟨ihl, ihn, ihp⟩ := ih (cl ++ [c]) h1 h2 h3 hregtail.2 h5
      have hrun : runCount cl (Event.register c :: rest) = runCount (cl ++ [c]) rest := by
        simp [runCount, hrs]
      refine ⟨?_, ?_, ?_⟩
      · rw [hrun, hregeq]
        simp only [List.length_append, List.length_cons] at ihl ⊢
        simp at ihl
        omega
      · rw [hrun]; exact ihn
      · rw [hrun, hregeq]
        intro i hi
        rcases ihp i hi with hm | hm
        · rw [ids_append] at hm
          rcases List.mem_append.mp hm with hmm | hmm
          · exact Or.inl hmm
          · have hic : i = c.id := by simpa [ids] using hmm
            exact Or.inr (by rw [hic]; exact List.mem_cons_self _ _)
        · exact Or.inr (List.mem_cons_of_mem _ hm)
    | unregister c =>
      have hregeq : regIds (Event.unregister c :: rest) = regIds rest := by simp [regIds]
      rw [hregeq] at hreg hdisj
      have h2 : ∀ d : Session, Event.register d ∈ rest →
          d.queue.length + rest.length ≤ d.cap := by
        intro d hd
        have := hcap d (List.mem_cons_of_mem _ hd)
        simp only [List.length_cons] at this
        omega
      cases hfind : cl.find? (fun s => s.id == c.id) with
      | none =>
        have hany : cl.any (fun s => s.id == c.id) = false := by
          cases hcase : cl.any (fun s => s.id == c.id) with
          | false => rfl
          | true =>
            obtain ⟨s, hs, hbe⟩ := List.any_eq_true.mp hcase
            exact absurd hbe (by simpa using List.find?_eq_none.mp hfind s hs)
        have hstep : (unregisterStep jsonMarshal cl c).1 = cl := by
          unfold unregisterStep; rw [hfind]
        have h1 : ∀ s ∈ cl, s.queue.length + rest.length ≤ s.cap := by
          intro s hsm
          have := hclcap s hsm
          simp only [List.length_cons] at this
          omega
        obtain ⟨ihl, ihn, ihp⟩ := ih cl h1 h2 hclids hreg hdisj
        have hrun : runCount cl (Event.unregister c :: rest) = runCount cl rest := by
          simp [runCount, hany, hstep]
        exact ⟨by rw [hrun, hregeq]; exact ihl, by rw [hrun]; exact ihn,
          by rw [hrun, hregeq]; exact ihp⟩
      | some s =>
        have hsmem : s ∈ cl := List.mem_of_find?_eq_some hfind
        have hsidb := List.find?_some hfind
        have hsid : s.id = c.id := by simpa using hsidb
        have hany : cl.any (fun t => t.id == c.id) = true :=
          List.any_eq_true.mpr ⟨s, hsmem, hsidb⟩
        have hflen := filter_remove_len c.id s hsid cl hclids hsmem
        have hokf : ∀ t ∈ cl.filter (fun t => !(t.id == c.id)),
            t.queue.length < t.cap := by
          intro t htm
          have := hclcap t (List.mem_of_mem_filter htm)
          simp only [List.length_cons] at this
          omega
        have hstep : (unregisterStep jsonMarshal cl c).1 =
            (cl.filter (fun t => !(t.id == c.id))).map
              (fun t => enqueue t (enc (userRemovedMsg c))) := by
          unfold unregisterStep
          rw [hfind]
          simp only [HandleDeleteUser, jsonMarshal]
          rw [broadcast_ok _ _ hokf]
        set fl := cl.filter (fun t => !(t.id == c.id)) with hfl
        set cl2 := fl.map (fun t => enqueue t (enc (userRemovedMsg c))) with hcl2def
        have hids2 : ids cl2 = ids fl := ids_map_enqueue fl _
        have hsub : List.Sublist (ids fl) (ids cl) := by
          rw [hfl]
          exact (List.filter_sublist cl).map (fun t => t.id)
        have hids2nodup : (ids cl2).Nodup := by
          rw [hids2]
          exact List.Sublist.nodup hsub hclids
        have h1 : ∀ t ∈ cl2, t.queue.length + rest.length ≤ t.cap := by
          intro t htm
          rw [hcl2def] at htm
          obtain ⟨u, hu, rfl⟩ := List.mem_map.mp htm
          rw [hfl] at hu
          have := hclcap u (List.mem_of_mem_filter hu)
          simp only [List.length_cons] at this
          simp only [enqueue_queue, enqueue_cap, List.length_append, List.length_singleton]
          omega
        have hdisj2 : ∀ i ∈ regIds rest, i ∉ ids cl2 := by
          intro i hi hm
          rw [hids2] at hm
          exact hdisj i hi (hsub.subset hm)
        obtain ⟨ihl, ihn, ihp⟩ := ih cl2 h1 h2 hids2nodup hreg hdisj2
        have hrun : runCount cl (Event.unregister c :: rest) =
            ((runCount cl2 rest).1, c.id :: (runCount cl2 rest).2) := by
          simp [runCount, hany, hstep]
        have hc_not_cl2 : c.id ∉ ids cl2 := by
          rw [hids2]
          intro hm
          obtain ⟨t, ht, hte⟩ := List.mem_map.mp hm
          rw [hfl] at ht
          have hmf := List.mem_filter.mp ht
          rw [hte] at hmf
          simp at hmf
        have hc_not_rest : c.id ∉ regIds rest := by
          intro hm
          exact hdisj c.id hm (List.mem_map.mpr ⟨s, hsmem, hsid⟩)
        have hc_not_u : c.id ∉ (runCount cl2 rest).2 := by
          intro hm
          rcases ihp c.id hm with h | h
          · exact hc_not_cl2 h
          · exact hc_not_rest h
        have hcl2len : cl2.length + 1 = cl.length := by
          rw [hcl2def]
          simp only [List.length_map]
          exact hflen
        refine ⟨?_, ?_, ?_⟩
        · rw [hrun, hregeq]
          simp only [List.length_cons]
          omega
        · rw [hrun]
          exact List.nodup_cons.mpr ⟨hc_not_u, ihn⟩
        · rw [hrun, hregeq]
          intro i hi
          rcases List.mem_cons.mp hi with he | hi2
          · exact Or.inl (by rw [he]; exact List.mem_map.mpr ⟨s, hsmem, hsid⟩)
          · rcases ihp i hi2 with h | h
            · rw [hids2] at h
              exact Or.inl (hsub.subset h)
            · exact Or.inr h
    | broadcast m =>
      have hregeq : regIds (Event.broadcast m :: rest) = regIds rest := by simp [regIds]
      rw [hregeq] at hreg hdisj
      have hok : ∀ s ∈ cl, s.queue.length < s.cap := by
        intro s hsm
        have := hclcap s hsm
        simp only [List.length_cons] at this
        omega
      have hstep : (BroadcastToAllClients cl m).1 = cl.map (fun s => enqueue s m) := by
        rw [broadcast_ok cl m hok]
      set cl2 := cl.map (fun s => enqueue s m) with hcl2def
      have hids2 : ids cl2 = ids cl := ids_map_enqueue cl m
      have h1 : ∀ t ∈ cl2, t.queue.length + rest.length ≤ t.cap := by
        intro t htm
        rw [hcl2def] at htm
        obtain ⟨u, hu, rfl⟩ := List.mem_map.mp htm
        have := hclcap u hu
        simp only [List.length_cons] at this
        simp only [enqueue_queue, enqueue_cap, List.length_append, List.length_singleton]
        omega
      have h2 : ∀ d : Session, Event.register d ∈ rest →
          d.queue.length + rest.length ≤ d.cap := by
        intro d hd
        have := hcap d (List.mem_cons_of_mem _ hd)
        simp only [List.length_cons] at this
        omega
      have hnody : (ids cl2).Nodup := by rw [hids2]; exact hclids
      have hdisj2 : ∀ i ∈ regIds rest, i ∉ ids cl2 := by
        intro i hi
        rw [hids2]
        exact hdisj i hi
      obtain ⟨ihl, ihn, ihp⟩ := ih cl2 h1 h2 hnody hreg hdisj2
      have hrun : runCount cl (Event.broadcast m :: rest) = runCount cl2 rest := by
        simp [runCount, hstep]
      have hcl2len : cl2.length = cl.length := by
        rw [hcl2def]; simp
      refine ⟨?_, ?_, ?_⟩
      · rw [hrun, hregeq]
        omega
      · rw [hrun]; exact ihn
      · rw [hrun, hregeq]
        intro i hi
        rcases ihp i hi with h | h
        · rw [hids2] at h
          exact Or.inl h
        · exact Or.inr h

/-- Claim C6 as stated is false on the code: in the sequence register
A, unregister A, register A every unregistered session was previously
registered, yet the final registry size is 1 while distinct sessions
registered minus distinct sessions successfully unregistered is
1 - 1 = 0: re-registration after a successful unregistration breaks
the counting formula. -/
theorem C6_counterexample :
    unregPrecededB evts6 [] = true ∧
    ¬ ((runCount [] evts6).1.length =
        (regIds evts6).dedup.length - ((runCount [] evts6).2).dedup.length) := by
  constructor
  · decide
  · decide

/-- Claim C6 amended: for sequences of register and unregister calls in
which each unregistered session was previously registered, no session
is registered twice, and every registered queue has headroom for the
triggered user-removed broadcasts (so no backpressure eviction
happens), the final registry size equals the number of distinct
sessions registered minus the number of distinct sessions successfully
unregistered. -/
theorem C6_register_unregister_counting (evts : List Event)
    (hprev : unregPrecededB evts [] = true)
    (hnodup : (regIds evts).Nodup)
    (hcap : ∀ c : Session, Event.register c ∈ evts →
      c.queue.length + evts.length ≤ c.cap) :
    (runCount [] evts).1.length =
      (regIds evts).dedup.length - ((runCount [] evts).2).dedup.length ∧
    (runCount [] evts).1.length + ((runCount [] evts).2).dedup.length =
      (regIds evts).dedup.length := by
  obtain ⟨hl, hn, _⟩ := runCount_main evts []
    (by intro s hs; cases hs) hcap (by simp [ids]) hnodup
    (by intro i _ hm; simp [ids] at hm)
  rw [List.dedup_eq_self.mpr hnodup, List.dedup_eq_self.mpr hn]
  simp only [List.length_nil, Nat.zero_add] at hl
  omega

/-- Witness for the amended C6: register A, register B, unregister A
leaves exactly one session and counts 2 - 1. -/
theorem C6_witness :
    (runCount [] [Event.register sessA, Event.register sessB, Event.unregister sessA]).1.length =
      (regIds [Event.register sessA, Event.register sessB, Event.unregister sessA]).dedup.length -
      ((runCount [] [Event.register sessA, Event.register sessB, Event.unregister sessA]).2).dedup.length := by
  refine (C6_register_unregister_counting _ (by decide) (by decide) ?_).1
  intro c hc
  simp only [List.mem_cons, List.not_mem_nil, or_false] at hc
  rcases hc with h | h | h
  · cases h; decide
  · cases h; decide
  · cases h
